import Mathlib

/-!
Verification of the humanesort crate against its specification.

The whole crate is src/lib.rs.  Strings are modelled as lists of UTF-8
bytes (Str := List Nat), because the tokenizer slices the source string
at byte indices.  Grapheme-cluster segmentation is performed by the
external unicode-segmentation crate; it enters the model as data, namely
the list of grapheme clusters (byte chunks) of the string, from which
the pairs produced by grapheme_indices are reconstructed.  A Rust panic
is modelled by Option.none.
-/

/-- A Rust str, as its UTF-8 byte sequence. -/
abbrev Str := List Nat

/-- Rust str::is_char_boundary: index 0 and the end of the string are
boundaries, and an interior index is a boundary iff its byte is not a
UTF-8 continuation byte (i.e. the byte is below 128 or at least 192). -/
def isCharBoundary (s : Str) (i : Nat) : Bool :=
  if i = 0 then true
  else if h : i < s.length then
    let b := s.get ⟨i, h⟩
    decide (b < 128 ∨ 192 ≤ b)
  else decide (i = s.length)

/-- Rust str slicing s[a..b]: none models the panic raised on a reversed
range, an end index past the end of the string, or an index that is not
a char boundary. -/
def sliceStr (s : Str) (a b : Nat) : Option Str :=
  if a ≤ b ∧ b ≤ s.length ∧ isCharBoundary s a ∧ isCharBoundary s b then
    some ((s.drop a).take (b - a))
  else none

/-- The (byte offset, grapheme) pairs produced by
UnicodeSegmentation::grapheme_indices, reconstructed from the list of
grapheme clusters, starting at byte offset o. -/
def graphemeIndicesFrom (o : Nat) : List Str → List (Nat × Str)
  | [] => []
  | g :: gs => (o, g) :: graphemeIndicesFrom (o + g.length) gs

/-- grapheme_indices of a whole string, given its grapheme clusters. -/
def graphemeIndices (gs : List Str) : List (Nat × Str) :=
  graphemeIndicesFrom 0 gs

/-- The grapheme segmentation of a string of ASCII alphanumeric
characters: every byte is its own grapheme cluster.  Used to supply the
real Unicode segmentation for the concrete ASCII inputs below. -/
def asciiSeg (s : Str) : List Str :=
  s.map fun b => [b]

/-- src/lib.rs enum SortingType. -/
inductive SortingType where
  | Numeric
  | NonNumeric
deriving DecidableEq

/-- Strip a single leading ASCII plus sign (byte 43), as Rust unsigned
integer parsing does. -/
def stripPlus (x : Str) : Str :=
  match x with
  | [] => []
  | b :: r => if b = 43 then r else b :: r

/-- One step of Rust's from_str_radix digit loop in base 10: to_digit
accepts only the ASCII digits 48-57, and checked_mul/checked_add fail
once the accumulated value would leave the u64 range. -/
def parseStep (acc : Option Nat) (b : Nat) : Option Nat :=
  acc.bind fun a =>
    if 48 ≤ b ∧ b ≤ 57 then
      if a * 10 + (b - 48) < 2 ^ 64 then some (a * 10 + (b - 48)) else none
    else none

/-- Rust str::parse::<u64>() (u64::from_str): an empty string fails;
otherwise an optional leading plus sign is stripped, and the remaining
text must be a nonempty run of ASCII digits, folded into a value with a
checked-overflow bound of 2^64 at every step.  none models Err.  A lone
minus sign or any other non-digit byte fails because it is not a digit. -/
def rustParseU64 (x : Str) : Option Nat :=
  match x with
  | [] => none
  | _ =>
    let digits := stripPlus x
    if digits = [] then none
    else digits.foldl parseStep (some 0)

/-- The comparator parses tokens with str::parse::<usize>(); on the
64-bit platforms the crate targets, usize is 64 bits wide, so the parse
coincides with the u64 parse. -/
abbrev rustParseUsize : Str → Option Nat := rustParseU64

/-- src/lib.rs fn sorting_type: Numeric iff the whole text parses as a
u64, otherwise NonNumeric. -/
def sorting_type (x : Str) : SortingType :=
  match rustParseU64 x with
  | some _ => SortingType.Numeric
  | none => SortingType.NonNumeric

/-- The inner loop of TokenIterator::next (src/lib.rs lines 141-158).
Arguments firstIndex, index and g hold the loop state: the byte offset
of the first grapheme of the current run, the byte offset of the most
recently consumed grapheme, and that grapheme's text.  The list is the
remaining state of the grapheme iterator.  On exhaustion or on a
classification mismatch with the peeked grapheme the token text is the
byte slice string[firstIndex..index+1]; none models the slicing panic. -/
def tokLoop {T : Type} [DecidableEq T] (f : Str → T) (s : Str)
    (firstIndex index : Nat) (g : Str) :
    List (Nat × Str) → Option ((Str × T) × List (Nat × Str))
  | [] => (sliceStr s firstIndex (index + 1)).map fun txt => ((txt, f g), [])
  | (i, t) :: rest =>
      if f g ≠ f t then
        (sliceStr s firstIndex (index + 1)).map fun txt => ((txt, f g), (i, t) :: rest)
      else
        tokLoop f s firstIndex i t rest

/-- TokenIterator::next (src/lib.rs lines 137-159).  The iterator state
is the remaining (offset, grapheme) list; f is the boxed token_type
closure and s the borrowed source string.  Result: none models a panic,
some none is the iterator's None (exhaustion), and some (some (tok, l))
yields token tok with l the iterator state afterwards.  (The source's
unreachable `None` arm after a successful peek cannot be represented
separately here: peek and next read the same list.) -/
def TokenIterator.next {T : Type} [DecidableEq T] (f : Str → T) (s : Str) :
    List (Nat × Str) → Option (Option ((Str × T) × List (Nat × Str)))
  | [] => some none
  | (firstIndex, g) :: rest =>
      match tokLoop f s firstIndex firstIndex g rest with
      | none => none
      | some r => some (some r)

/-- Eager tokenization, run-fused: the same loop as tokLoop, but on a
classification mismatch it emits the finished token and keeps
tokenizing the rest of the stream. -/
def tokenizeGo {T : Type} [DecidableEq T] (f : Str → T) (s : Str)
    (firstIndex index : Nat) (g : Str) :
    List (Nat × Str) → Option (List (Str × T))
  | [] => (sliceStr s firstIndex (index + 1)).map fun txt => [(txt, f g)]
  | (i, t) :: rest =>
      if f g ≠ f t then
        match sliceStr s firstIndex (index + 1) with
        | none => none
        | some txt => (tokenizeGo f s i i t rest).map fun toks => (txt, f g) :: toks
      else
        tokenizeGo f s firstIndex i t rest

/-- The list of every token TokenIterator::next yields for the given
iterator state, or none if some call to next panics. -/
def tokenize {T : Type} [DecidableEq T] (f : Str → T) (s : Str) :
    List (Nat × Str) → Option (List (Str × T))
  | [] => some []
  | (i, g) :: rest => tokenizeGo f s i i g rest

/-- Ord::cmp on Rust unsigned integers. -/
def cmpNat (a b : Nat) : Ordering :=
  if a < b then .lt else if b < a then .gt else .eq

/-- Ord::cmp on Rust str: lexicographic comparison of the byte
sequences. -/
def lexBytes : Str → Str → Ordering
  | [], [] => .eq
  | [], _ :: _ => .lt
  | _ :: _, [] => .gt
  | a :: x, b :: y =>
      if a < b then .lt else if b < a then .gt else lexBytes x y

/-- The per-pair body of the humane_order loop (src/lib.rs lines
86-103): some (some v) is a returned verdict, some none means the pair
tied and the loop continues, and none models the unwrap panic when a
Numeric-classified token fails to parse as usize. -/
def cmpTokens (t1 t2 : Str × SortingType) : Option (Option Ordering) :=
  match t1.2, t2.2 with
  | SortingType.Numeric, SortingType.NonNumeric => some (some .lt)
  | SortingType.NonNumeric, SortingType.Numeric => some (some .gt)
  | SortingType.Numeric, SortingType.Numeric =>
      match rustParseUsize t1.1, rustParseUsize t2.1 with
      | some a, some b =>
          let c := cmpNat a b
          if c ≠ .eq then some (some c) else some none
      | _, _ => none
  | SortingType.NonNumeric, SortingType.NonNumeric =>
      let c := lexBytes t1.1 t2.1
      if c ≠ .eq then some (some c) else some none

/-- The loop of humane_order (src/lib.rs lines 81-104).  Each iteration
pulls one token from each stream (both next calls are evaluated, as in
the Rust tuple) and applies the match arms in source order.  fuel is an
upper bound on the number of iterations; every iteration that continues
consumes at least one grapheme from both streams, so any fuel larger
than the length of either stream makes the 0 branch unreachable. -/
def humaneOrderLoop : Nat → Str → Str → List (Nat × Str) → List (Nat × Str) → Option Ordering
  | 0, _, _, _, _ => none
  | fuel + 1, s1, s2, l1, l2 =>
      match TokenIterator.next sorting_type s1 l1, TokenIterator.next sorting_type s2 l2 with
      | none, _ => none
      | _, none => none
      | some none, some none => some .eq
      | some none, some (some _) => some .lt
      | some (some _), some none => some .gt
      | some (some (t1, r1)), some (some (t2, r2)) =>
          match cmpTokens t1 t2 with
          | none => none
          | some (some v) => some v
          | some none => humaneOrderLoop fuel s1 s2 r1 r2

/-- src/lib.rs pub fn humane_order, for the strings a and b whose
grapheme-cluster lists (as computed by the unicode-segmentation crate)
are gsa and gsb.  some v is the returned Ordering; none models a panic
(either a slicing panic inside TokenIterator::next or the parse unwrap
panic). -/
def humane_order (a b : Str) (gsa gsb : List Str) : Option Ordering :=
  humaneOrderLoop ((graphemeIndices gsa).length + 1) a b
    (graphemeIndices gsa) (graphemeIndices gsb)

/-- src/lib.rs pub struct HumaneString; derived PartialEq/Eq compare the
owned string data. -/
structure HumaneString where
  data : Str
deriving DecidableEq

/-- HumaneString::new. -/
def HumaneString.new (s : Str) : HumaneString :=
  ⟨s⟩

/-- The AsRef impl used by humane_order. -/
def HumaneString.as_ref (h : HumaneString) : Str :=
  h.data

/-- The Ord impl for HumaneString: cmp delegates to humane_order on the
wrapped strings (whose grapheme-cluster lists are gsx and gsy). -/
def HumaneString.cmp (x y : HumaneString) (gsx gsy : List Str) : Option Ordering :=
  humane_order x.as_ref y.as_ref gsx gsy

/-- The base-10 value of a digit string, read left to right starting
from accumulator a, with no overflow bound (the mathematical value). -/
def valFrom : Str → Nat → Nat
  | [], a => a
  | b :: r, a => valFrom r (a * 10 + (b - 48))

/-- The mathematical value of a numeral (the claim-side notion of the
parsed unsigned-integer value of a token text). -/
def digitsVal (x : Str) : Nat :=
  valFrom x 0

/-- A Numeric token text as claim C1 presumes it: a nonempty run of
ASCII digits whose value fits the unsigned 64-bit range. -/
def GoodNumeral (x : Str) : Prop :=
  x ≠ [] ∧ (∀ b ∈ x, 48 ≤ b ∧ b ≤ 57) ∧ digitsVal x < 2 ^ 64

instance (x : Str) : Decidable (GoodNumeral x) := by
  unfold GoodNumeral
  infer_instance

/-- The per-pair tie-break table exactly as claim C1 words it:
(Numeric, NonNumeric) is Less, (NonNumeric, Numeric) is Greater,
(Numeric, Numeric) compares the parsed unsigned-integer values,
(NonNumeric, NonNumeric) compares the texts byte-lexicographically;
some v is a verdict and none means the pair tied and the walk
continues. -/
def specCmpTok (t1 t2 : Str × SortingType) : Option Ordering :=
  match t1.2, t2.2 with
  | SortingType.Numeric, SortingType.NonNumeric => some Ordering.lt
  | SortingType.NonNumeric, SortingType.Numeric => some Ordering.gt
  | SortingType.Numeric, SortingType.Numeric =>
      let c := cmpNat (digitsVal t1.1) (digitsVal t2.1)
      if c = Ordering.eq then none else some c
  | SortingType.NonNumeric, SortingType.NonNumeric =>
      let c := lexBytes t1.1 t2.1
      if c = Ordering.eq then none else some c

/-- The lock-step walk over the two finished token sequences exactly as
claim C1 words it: return at the first non-equal pair verdict; if one
sequence is exhausted first it is Less; if both exhaust simultaneously
the result is Equal. -/
def specHumaneOrder : List (Str × SortingType) → List (Str × SortingType) → Ordering
  | [], [] => Ordering.eq
  | [], _ :: _ => Ordering.lt
  | _ :: _, [] => Ordering.gt
  | t1 :: r1, t2 :: r2 =>
      match specCmpTok t1 t2 with
      | some v => v
      | none => specHumaneOrder r1 r2

/-- The classification rule exactly as claim C5 words it: Numeric iff
the entire text parses as an unsigned integer with no sign, no decimal
point and no leading or trailing whitespace, i.e. iff the text is a
nonempty run of ASCII digits. -/
def specSortingType (x : Str) : SortingType :=
  if x ≠ [] ∧ ∀ b ∈ x, 48 ≤ b ∧ b ≤ 57 then SortingType.Numeric
  else SortingType.NonNumeric

/-- The bytes of "007". -/
def str007 : Str := [48, 48, 55]

/-- The bytes of "7". -/
def str7 : Str := [55]

/-- The two UTF-8 bytes of the single-grapheme string containing
U+00E9 (the precomposed letter e with acute accent). -/
def eAcute : Str := [195, 169]

/-- The three UTF-8 bytes of the letter e followed by the combining
acute accent U+0301: two code points forming one grapheme cluster. -/
def eCombining : Str := [101, 204, 129]

/-- Twenty-six ASCII nines: a numeral far beyond the 64-bit range. -/
def nines26 : Str := List.replicate 26 57

/-- The bytes of "a". -/
def aChr : Str := [97]

/-- The bytes of "file2". -/
def file2Str : Str := [102, 105, 108, 101, 50]

/-- The bytes of "file10". -/
def file10Str : Str := [102, 105, 108, 101, 49, 48]

/-! ### Facts about the primitive comparisons -/

theorem lexBytes_eq_iff : ∀ (x y : Str), lexBytes x y = Ordering.eq ↔ x = y := by
  intro x
  induction x with
  | nil =>
    intro y
    cases y with
    | nil => simp [lexBytes]
    | cons b yy => simp [lexBytes]
  | cons a xx ih =>
    intro y
    cases y with
    | nil => simp [lexBytes]
    | cons b yy =>
      by_cases h1 : a < b
      · have hab : a ≠ b := Nat.ne_of_lt h1
        simp [lexBytes, h1, hab]
      · by_cases h2 : b < a
        · have hab : a ≠ b := (Nat.ne_of_lt h2).symm
          simp [lexBytes, h1, h2, hab]
        · have hab : a = b := by omega
          simp [lexBytes, h1, h2, ih yy, hab]

theorem lexBytes_swap : ∀ (x y : Str), lexBytes y x = (lexBytes x y).swap := by
  intro x
  induction x with
  | nil =>
    intro y
    cases y with
    | nil => simp [lexBytes, Ordering.swap]
    | cons b yy => simp [lexBytes, Ordering.swap]
  | cons a xx ih =>
    intro y
    cases y with
    | nil => simp [lexBytes, Ordering.swap]
    | cons b yy =>
      by_cases h1 : a < b
      · have h2 : ¬ b < a := by omega
        simp [lexBytes, h1, h2, Ordering.swap]
      · by_cases h2 : b < a
        · simp [lexBytes, h1, h2, Ordering.swap]
        · simp [lexBytes, h1, h2, ih yy]

theorem lexBytes_lt_trans : ∀ (x y z : Str), lexBytes x y = Ordering.lt →
    lexBytes y z = Ordering.lt → lexBytes x z = Ordering.lt := by
  intro x
  induction x with
  | nil =>
    intro y z hxy hyz
    cases z with
    | nil =>
      cases y with
      | nil => simp [lexBytes] at hxy
      | cons b yy => simp [lexBytes] at hyz
    | cons c zz => simp [lexBytes]
  | cons a xx ih =>
    intro y z hxy hyz
    cases y with
    | nil => simp [lexBytes] at hxy
    | cons b yy =>
      cases z with
      | nil => simp [lexBytes] at hyz
      | cons c zz =>
        by_cases h1 : a < b
        · by_cases h3 : b < c
          · have hac : a < c := Nat.lt_trans h1 h3
            simp [lexBytes, hac]
          · by_cases h4 : c < b
            · simp [lexBytes, h3, h4] at hyz
            · have hac : a < c := by omega
              simp [lexBytes, hac]
        · by_cases h2 : b < a
          · simp [lexBytes, h1, h2] at hxy
          · by_cases h3 : b < c
            · have hac : a < c := by omega
              simp [lexBytes, hac]
            · by_cases h4 : c < b
              · simp [lexBytes, h3, h4] at hyz
              · have h5 : ¬ a < c := by omega
                have h6 : ¬ c < a := by omega
                simp [lexBytes, h1, h2] at hxy
                simp [lexBytes, h3, h4] at hyz
                simp [lexBytes, h5, h6]
                exact ih yy zz hxy hyz

theorem cmpNat_lt_iff (a b : Nat) : cmpNat a b = Ordering.lt ↔ a < b := by
  unfold cmpNat
  split_ifs <;> simp_all

theorem cmpNat_eq_iff (a b : Nat) : cmpNat a b = Ordering.eq ↔ a = b := by
  unfold cmpNat
  split_ifs <;> simp_all <;> omega

theorem cmpNat_gt_iff (a b : Nat) : cmpNat a b = Ordering.gt ↔ b < a := by
  unfold cmpNat
  split_ifs <;> simp_all <;> omega

/-! ### Characterizations of the per-pair verdict -/

theorem cmpTokens_tie_iff (x1 x2 : Str) (c1 c2 : SortingType) :
    cmpTokens (x1, c1) (x2, c2) = some none ↔
      (c1 = SortingType.NonNumeric ∧ c2 = SortingType.NonNumeric ∧ x1 = x2) ∨
      (c1 = SortingType.Numeric ∧ c2 = SortingType.Numeric ∧
        ∃ v, rustParseUsize x1 = some v ∧ rustParseUsize x2 = some v) := by
  cases c1 <;> cases c2 <;> simp only [cmpTokens]
  · cases hp1 : rustParseUsize x1 with
    | none => simp
    | some a =>
      cases hp2 : rustParseUsize x2 with
      | none => simp
      | some b =>
        by_cases hab : a = b
        · subst hab
          simp [cmpNat_eq_iff]
        · have hne : cmpNat a b ≠ Ordering.eq := by
            simp [cmpNat_eq_iff, hab]
          simp [hne, hab]
          omega
  · simp
  · simp
  · by_cases hx : x1 = x2
    · subst hx
      simp [(lexBytes_eq_iff x1 x1).mpr rfl]
    · have : lexBytes x1 x2 ≠ Ordering.eq := by
        simp [lexBytes_eq_iff, hx]
      simp [this, hx]

theorem cmpTokens_lt_iff (x1 x2 : Str) (c1 c2 : SortingType) :
    cmpTokens (x1, c1) (x2, c2) = some (some Ordering.lt) ↔
      (c1 = SortingType.Numeric ∧ c2 = SortingType.NonNumeric) ∨
      (c1 = SortingType.Numeric ∧ c2 = SortingType.Numeric ∧
        ∃ v w, rustParseUsize x1 = some v ∧ rustParseUsize x2 = some w ∧ v < w) ∨
      (c1 = SortingType.NonNumeric ∧ c2 = SortingType.NonNumeric ∧
        lexBytes x1 x2 = Ordering.lt) := by
  cases c1 <;> cases c2 <;> simp only [cmpTokens]
  · cases hp1 : rustParseUsize x1 with
    | none => simp
    | some a =>
      cases hp2 : rustParseUsize x2 with
      | none => simp
      | some b =>
        by_cases hab : a < b
        · have h1 : cmpNat a b = Ordering.lt := (cmpNat_lt_iff a b).mpr hab
          simp [h1, hab]
        · have h1 : cmpNat a b ≠ Ordering.lt := by
            simp [cmpNat_lt_iff, hab]
          rcases h2 : cmpNat a b <;> simp_all
  · simp
  · simp
  · rcases h : lexBytes x1 x2 <;> simp [h]

theorem cmpTokens_swap (t1 t2 : Str × SortingType) :
    cmpTokens t2 t1 = (cmpTokens t1 t2).map (Option.map Ordering.swap) := by
  obtain ⟨x1, c1⟩ := t1
  obtain ⟨x2, c2⟩ := t2
  cases c1 <;> cases c2 <;> simp only [cmpTokens]
  · cases hp1 : rustParseUsize x1 with
    | none => cases hp2 : rustParseUsize x2 <;> simp
    | some a =>
      cases hp2 : rustParseUsize x2 with
      | none => simp
      | some b =>
        rcases Nat.lt_trichotomy a b with h | h | h
        · have h1 : cmpNat a b = Ordering.lt := (cmpNat_lt_iff a b).mpr h
          have h2 : cmpNat b a = Ordering.gt := (cmpNat_gt_iff b a).mpr h
          simp [h1, h2, Ordering.swap]
        · subst h
          have h1 : cmpNat a a = Ordering.eq := (cmpNat_eq_iff a a).mpr rfl
          simp [h1]
        · have h1 : cmpNat a b = Ordering.gt := (cmpNat_gt_iff a b).mpr h
          have h2 : cmpNat b a = Ordering.lt := (cmpNat_lt_iff b a).mpr h
          simp [h1, h2, Ordering.swap]
  · simp [Ordering.swap]
  · simp [Ordering.swap]
  · rw [lexBytes_swap x1 x2]
    rcases h : lexBytes x1 x2 <;> simp [h, Ordering.swap]

theorem cmpTokens_self (t : Str × SortingType) :
    cmpTokens t t = none ∨ cmpTokens t t = some none := by
  obtain ⟨x, c⟩ := t
  cases c
  · cases hp : rustParseUsize x with
    | none => left; simp [cmpTokens, hp]
    | some a =>
      right
      simp [cmpTokens, hp, (cmpNat_eq_iff a a).mpr rfl]
  · right
    simp [cmpTokens, (lexBytes_eq_iff x x).mpr rfl]

theorem cmpTokens_lt_lt {t1 t2 t3 : Str × SortingType}
    (h1 : cmpTokens t1 t2 = some (some Ordering.lt))
    (h2 : cmpTokens t2 t3 = some (some Ordering.lt)) :
    cmpTokens t1 t3 = some (some Ordering.lt) := by
  obtain ⟨x1, c1⟩ := t1
  obtain ⟨x2, c2⟩ := t2
  obtain ⟨x3, c3⟩ := t3
  rw [cmpTokens_lt_iff] at h1 h2 ⊢
  rcases h1 with ⟨hc1, hc2⟩ | ⟨hc1, hc2, v, w, hv, hw, hvw⟩ | ⟨hc1, hc2, hlex⟩
  · rcases h2 with ⟨hd2, hd3⟩ | ⟨hd2, hd3, v2, w2, hv2, hw2, hvw2⟩ | ⟨hd2, hd3, hlex2⟩
    · rw [hc2] at hd2; cases hd2
    · rw [hc2] at hd2; cases hd2
    · exact Or.inl ⟨hc1, hd3⟩
  · rcases h2 with ⟨hd2, hd3⟩ | ⟨hd2, hd3, v2, w2, hv2, hw2, hvw2⟩ | ⟨hd2, hd3, hlex2⟩
    · exact Or.inl ⟨hc1, hd3⟩
    · refine Or.inr (Or.inl ⟨hc1, hd3, v, w2, hv, hw2, ?_⟩)
      have hww : w = v2 := by
        have := hw.symm.trans hv2
        injection this
      omega
    · rw [hc2] at hd2; cases hd2
  · rcases h2 with ⟨hd2, hd3⟩ | ⟨hd2, hd3, v2, w2, hv2, hw2, hvw2⟩ | ⟨hd2, hd3, hlex2⟩
    · rw [hc2] at hd2; cases hd2
    · rw [hc2] at hd2; cases hd2
    · exact Or.inr (Or.inr ⟨hc1, hd3, lexBytes_lt_trans x1 x2 x3 hlex hlex2⟩)

theorem cmpTokens_lt_tie {t1 t2 t3 : Str × SortingType}
    (h1 : cmpTokens t1 t2 = some (some Ordering.lt))
    (h2 : cmpTokens t2 t3 = some none) :
    cmpTokens t1 t3 = some (some Ordering.lt) := by
  obtain ⟨x1, c1⟩ := t1
  obtain ⟨x2, c2⟩ := t2
  obtain ⟨x3, c3⟩ := t3
  rw [cmpTokens_lt_iff] at h1 ⊢
  rw [cmpTokens_tie_iff] at h2
  rcases h1 with ⟨hc1, hc2⟩ | ⟨hc1, hc2, v, w, hv, hw, hvw⟩ | ⟨hc1, hc2, hlex⟩
  · rcases h2 with ⟨hd2, hd3, hx⟩ | ⟨hd2, hd3, u, hu2, hu3⟩
    · exact Or.inl ⟨hc1, hd3⟩
    · rw [hc2] at hd2; cases hd2
  · rcases h2 with ⟨hd2, hd3, hx⟩ | ⟨hd2, hd3, u, hu2, hu3⟩
    · rw [hc2] at hd2; cases hd2
    · refine Or.inr (Or.inl ⟨hc1, hd3, v, u, hv, hu3, ?_⟩)
      have hwu : w = u := by
        have := hw.symm.trans hu2
        injection this
      omega
  · rcases h2 with ⟨hd2, hd3, hx⟩ | ⟨hd2, hd3, u, hu2, hu3⟩
    · subst hx
      exact Or.inr (Or.inr ⟨hc1, hd3, hlex⟩)
    · rw [hc2] at hd2; cases hd2

theorem cmpTokens_tie_lt {t1 t2 t3 : Str × SortingType}
    (h1 : cmpTokens t1 t2 = some none)
    (h2 : cmpTokens t2 t3 = some (some Ordering.lt)) :
    cmpTokens t1 t3 = some (some Ordering.lt) := by
  obtain ⟨x1, c1⟩ := t1
  obtain ⟨x2, c2⟩ := t2
  obtain ⟨x3, c3⟩ := t3
  rw [cmpTokens_tie_iff] at h1
  rw [cmpTokens_lt_iff] at h2 ⊢
  rcases h1 with ⟨hc1, hc2, hx⟩ | ⟨hc1, hc2, u, hu1, hu2⟩
  · rcases h2 with ⟨hd2, hd3⟩ | ⟨hd2, hd3, v2, w2, hv2, hw2, hvw2⟩ | ⟨hd2, hd3, hlex2⟩
    · rw [hc2] at hd2; cases hd2
    · rw [hc2] at hd2; cases hd2
    · subst hx
      exact Or.inr (Or.inr ⟨hc1, hd3, hlex2⟩)
  · rcases h2 with ⟨hd2, hd3⟩ | ⟨hd2, hd3, v2, w2, hv2, hw2, hvw2⟩ | ⟨hd2, hd3, hlex2⟩
    · exact Or.inl ⟨hc1, hd3⟩
    · refine Or.inr (Or.inl ⟨hc1, hd3, u, w2, hu1, hw2, ?_⟩)
      have huv : u = v2 := by
        have := hu2.symm.trans hv2
        injection this
      omega
    · rw [hc2] at hd2; cases hd2

theorem cmpTokens_tie_tie {t1 t2 t3 : Str × SortingType}
    (h1 : cmpTokens t1 t2 = some none)
    (h2 : cmpTokens t2 t3 = some none) :
    cmpTokens t1 t3 = some none := by
  obtain ⟨x1, c1⟩ := t1
  obtain ⟨x2, c2⟩ := t2
  obtain ⟨x3, c3⟩ := t3
  rw [cmpTokens_tie_iff] at h1 h2 ⊢
  rcases h1 with ⟨hc1, hc2, hx⟩ | ⟨hc1, hc2, u, hu1, hu2⟩
  · rcases h2 with ⟨hd2, hd3, hx2⟩ | ⟨hd2, hd3, u2, hu2b, hu3⟩
    · exact Or.inl ⟨hc1, hd3, hx.trans hx2⟩
    · rw [hc2] at hd2; cases hd2
  · rcases h2 with ⟨hd2, hd3, hx2⟩ | ⟨hd2, hd3, u2, hu2b, hu3⟩
    · rw [hc2] at hd2; cases hd2
    · refine Or.inr ⟨hc1, hd3, u, hu1, ?_⟩
      have huu : u = u2 := by
        have := hu2.symm.trans hu2b
        injection this
      rw [huu]
      exact hu3

/-! ### The tokenizer consumes graphemes -/

theorem tokLoop_rest_length {T : Type} [DecidableEq T] (f : Str → T) (s : Str) :
    ∀ (l : List (Nat × Str)) (fi idx : Nat) (g : Str) (tok : Str × T)
      (rest : List (Nat × Str)),
      tokLoop f s fi idx g l = some (tok, rest) → rest.length ≤ l.length := by
  intro l
  induction l with
  | nil =>
    intro fi idx g tok rest h
    simp only [tokLoop] at h
    cases hs : sliceStr s fi (idx + 1) with
    | none => rw [hs] at h; simp at h
    | some txt =>
      rw [hs] at h
      simp at h
      simp [h.2]
  | cons p rest' ih =>
    obtain ⟨i, t⟩ := p
    intro fi idx g tok rest h
    by_cases hft : f g = f t
    · simp only [tokLoop, hft, ne_eq, not_true_eq_false, if_false] at h
      exact Nat.le_trans (ih fi i t tok rest h) (Nat.le_succ _)
    · simp only [tokLoop, ne_eq, hft, not_false_eq_true, if_true] at h
      cases hs : sliceStr s fi (idx + 1) with
      | none => rw [hs] at h; simp at h
      | some txt =>
        rw [hs] at h
        simp at h
        simp [h.2]

theorem next_rest_length {T : Type} [DecidableEq T] (f : Str → T) (s : Str)
    (l : List (Nat × Str)) (tok : Str × T) (rest : List (Nat × Str))
    (h : TokenIterator.next f s l = some (some (tok, rest))) :
    rest.length < l.length := by
  cases l with
  | nil => simp [TokenIterator.next] at h
  | cons p rest' =>
    obtain ⟨i, g⟩ := p
    simp only [TokenIterator.next] at h
    cases ht : tokLoop f s i i g rest' with
    | none => rw [ht] at h; simp at h
    | some r =>
      rw [ht] at h
      simp at h
      rw [h] at ht
      have := tokLoop_rest_length f s rest' i i g tok rest ht
      simp only [List.length_cons]
      omega

/-! ### Properties of the humane_order loop -/

theorem humaneOrderLoop_fuel {s1 s2 : Str} :
    ∀ (f f2 : Nat) (l1 l2 : List (Nat × Str)),
      min l1.length l2.length < f → min l1.length l2.length < f2 →
      humaneOrderLoop f s1 s2 l1 l2 = humaneOrderLoop f2 s1 s2 l1 l2 := by
  intro f
  induction f with
  | zero =>
    intro f2 l1 l2 h1 h2
    omega
  | succ f ih =>
    intro f2 l1 l2 h1 h2
    cases f2 with
    | zero => omega
    | succ f2 =>
      cases hA : TokenIterator.next sorting_type s1 l1 with
      | none => simp [humaneOrderLoop, hA]
      | some o1 =>
        cases hB : TokenIterator.next sorting_type s2 l2 with
        | none => cases o1 <;> simp [humaneOrderLoop, hA, hB]
        | some o2 =>
          cases o1 with
          | none => cases o2 <;> simp [humaneOrderLoop, hA, hB]
          | some tr1 =>
            cases o2 with
            | none => simp [humaneOrderLoop, hA, hB]
            | some tr2 =>
              obtain ⟨t1, r1⟩ := tr1
              obtain ⟨t2, r2⟩ := tr2
              cases hc : cmpTokens t1 t2 with
              | none => simp [humaneOrderLoop, hA, hB, hc]
              | some ov =>
                cases ov with
                | some v => simp [humaneOrderLoop, hA, hB, hc]
                | none =>
                  simp only [humaneOrderLoop, hA, hB, hc]
                  have hr1 := next_rest_length _ _ _ _ _ hA
                  have hr2 := next_rest_length _ _ _ _ _ hB
                  exact ih f2 r1 r2 (by omega) (by omega)

theorem humaneOrderLoop_refl {s : Str} :
    ∀ (f : Nat) (l : List (Nat × Str)),
      humaneOrderLoop f s s l l ≠ none →
      humaneOrderLoop f s s l l = some Ordering.eq := by
  intro f
  induction f with
  | zero =>
    intro l h
    simp [humaneOrderLoop] at h
  | succ f ih =>
    intro l h
    cases hA : TokenIterator.next sorting_type s l with
    | none => simp [humaneOrderLoop, hA] at h
    | some o1 =>
      cases o1 with
      | none => simp [humaneOrderLoop, hA]
      | some tr =>
        obtain ⟨t, r⟩ := tr
        cases hc : cmpTokens t t with
        | none => simp [humaneOrderLoop, hA, hc] at h
        | some ov =>
          cases ov with
          | some v =>
            rcases cmpTokens_self t with hself | hself <;>
              rw [hself] at hc <;> simp at hc
          | none =>
            simp only [humaneOrderLoop, hA, hc] at h ⊢
            exact ih r h

theorem humaneOrderLoop_swap {s1 s2 : Str} :
    ∀ (f : Nat) (l1 l2 : List (Nat × Str)),
      humaneOrderLoop f s2 s1 l2 l1 =
        (humaneOrderLoop f s1 s2 l1 l2).map Ordering.swap := by
  intro f
  induction f with
  | zero => intro l1 l2; rfl
  | succ f ih =>
    intro l1 l2
    cases hA : TokenIterator.next sorting_type s1 l1 with
    | none =>
      cases hB : TokenIterator.next sorting_type s2 l2 with
      | none => simp [humaneOrderLoop, hA, hB, Ordering.swap]
      | some o2 => cases o2 <;> simp [humaneOrderLoop, hA, hB, Ordering.swap]
    | some o1 =>
      cases hB : TokenIterator.next sorting_type s2 l2 with
      | none => cases o1 <;> simp [humaneOrderLoop, hA, hB, Ordering.swap]
      | some o2 =>
        cases o1 with
        | none => cases o2 <;> simp [humaneOrderLoop, hA, hB, Ordering.swap]
        | some tr1 =>
          cases o2 with
          | none => simp [humaneOrderLoop, hA, hB, Ordering.swap]
          | some tr2 =>
            obtain ⟨t1, r1⟩ := tr1
            obtain ⟨t2, r2⟩ := tr2
            have hsw := cmpTokens_swap t1 t2
            cases hc : cmpTokens t1 t2 with
            | none =>
              rw [hc] at hsw
              simp only [Option.map_none'] at hsw
              simp [humaneOrderLoop, hA, hB, hc, hsw, Ordering.swap]
            | some ov =>
              cases ov with
              | some v =>
                rw [hc] at hsw
                simp only [Option.map_some', Option.map_none'] at hsw
                simp [humaneOrderLoop, hA, hB, hc, hsw, Ordering.swap]
              | none =>
                rw [hc] at hsw
                simp only [Option.map_some', Option.map_none'] at hsw
                simp only [humaneOrderLoop, hA, hB, hc, hsw]
                exact ih r1 r2

theorem humaneOrderLoop_lt_trans {a b c : Str} :
    ∀ (f3 f1 f2 : Nat) (l1 l2 l3 : List (Nat × Str)),
      l1.length < f3 →
      humaneOrderLoop f1 a b l1 l2 = some Ordering.lt →
      humaneOrderLoop f2 b c l2 l3 = some Ordering.lt →
      humaneOrderLoop f3 a c l1 l3 = some Ordering.lt := by
  intro f3
  induction f3 with
  | zero =>
    intro f1 f2 l1 l2 l3 h
    omega
  | succ f3 ih =>
    intro f1 f2 l1 l2 l3 hlen h12 h23
    cases f1 with
    | zero => simp [humaneOrderLoop] at h12
    | succ f1 =>
    cases f2 with
    | zero => simp [humaneOrderLoop] at h23
    | succ f2 =>
    cases hA : TokenIterator.next sorting_type a l1 with
    | none => simp [humaneOrderLoop, hA] at h12
    | some o1 =>
    cases hB : TokenIterator.next sorting_type b l2 with
    | none => cases o1 <;> simp [humaneOrderLoop, hA, hB] at h12
    | some o2 =>
    cases o2 with
    | none =>
      cases o1 with
      | none => simp [humaneOrderLoop, hA, hB] at h12
      | some tr1 => simp [humaneOrderLoop, hA, hB] at h12
    | some tr2 =>
      obtain ⟨t2tok, r2⟩ := tr2
      cases hC : TokenIterator.next sorting_type c l3 with
      | none => simp [humaneOrderLoop, hB, hC] at h23
      | some o3 =>
      cases o3 with
      | none => simp [humaneOrderLoop, hB, hC] at h23
      | some tr3 =>
        obtain ⟨t3tok, r3⟩ := tr3
        cases o1 with
        | none => simp [humaneOrderLoop, hA, hC]
        | some tr1 =>
          obtain ⟨t1tok, r1⟩ := tr1
          simp only [humaneOrderLoop, hA, hB] at h12
          simp only [humaneOrderLoop, hB, hC] at h23
          cases hc12 : cmpTokens t1tok t2tok with
          | none => rw [hc12] at h12; simp at h12
          | some ov12 =>
          rw [hc12] at h12
          cases hc23 : cmpTokens t2tok t3tok with
          | none => rw [hc23] at h23; simp at h23
          | some ov23 =>
          rw [hc23] at h23
          cases ov12 with
          | some v12 =>
            simp only [Option.some.injEq] at h12
            replace h12 : v12 = Ordering.lt := by
              simpa using h12
            subst h12
            cases ov23 with
            | some v23 =>
              replace h23 : v23 = Ordering.lt := by
                simpa using h23
              subst h23
              simp [humaneOrderLoop, hA, hC, cmpTokens_lt_lt hc12 hc23]
            | none =>
              simp [humaneOrderLoop, hA, hC, cmpTokens_lt_tie hc12 hc23]
          | none =>
            replace h12 : humaneOrderLoop f1 a b r1 r2 = some Ordering.lt := by
              simpa using h12
            cases ov23 with
            | some v23 =>
              replace h23 : v23 = Ordering.lt := by
                simpa using h23
              subst h23
              simp [humaneOrderLoop, hA, hC, cmpTokens_tie_lt hc12 hc23]
            | none =>
              replace h23 : humaneOrderLoop f2 b c r2 r3 = some Ordering.lt := by
                simpa using h23
              simp only [humaneOrderLoop, hA, hC, cmpTokens_tie_tie hc12 hc23]
              have hr1 := next_rest_length _ _ _ _ _ hA
              exact ih f1 f2 r1 r2 r3 (by omega) h12 h23

/-! ### Relation between lazy and eager tokenization -/

theorem tokenizeGo_eq {T : Type} [DecidableEq T] (f : Str → T) (s : Str) :
    ∀ (l : List (Nat × Str)) (fi idx : Nat) (g : Str),
      tokenizeGo f s fi idx g l =
        match tokLoop f s fi idx g l with
        | none => none
        | some (tok, rest) => (tokenize f s rest).map fun toks => tok :: toks := by
  intro l
  induction l with
  | nil =>
    intro fi idx g
    simp only [tokenizeGo, tokLoop]
    cases hs : sliceStr s fi (idx + 1) with
    | none => rfl
    | some txt => simp [tokenize]
  | cons p rest ih =>
    obtain ⟨i, t⟩ := p
    intro fi idx g
    by_cases hft : f g = f t
    · simp only [tokenizeGo, tokLoop, hft, ne_eq, not_true_eq_false, if_false]
      exact ih fi i t
    · simp only [tokenizeGo, tokLoop, ne_eq, hft, not_false_eq_true, if_true]
      cases hs : sliceStr s fi (idx + 1) with
      | none => rfl
      | some txt => simp [tokenize]

theorem tokenize_step {T : Type} [DecidableEq T] (f : Str → T) (s : Str)
    (l : List (Nat × Str)) :
    tokenize f s l =
      match TokenIterator.next f s l with
      | none => none
      | some none => some []
      | some (some (tok, rest)) => (tokenize f s rest).map fun toks => tok :: toks := by
  cases l with
  | nil => simp [tokenize, TokenIterator.next]
  | cons p rest =>
    obtain ⟨i, g⟩ := p
    simp only [tokenize, TokenIterator.next]
    rw [tokenizeGo_eq]
    cases ht : tokLoop f s i i g rest with
    | none => rfl
    | some r =>
      obtain ⟨tok, rest2⟩ := r
      rfl

/-! ### Characterization of the Rust unsigned parse -/


theorem parseStep_none (l : Str) : l.foldl parseStep none = none := by
  induction l with
  | nil => rfl
  | cons b r ih =>
    simp only [List.foldl_cons]
    have hb : parseStep none b = none := rfl
    rw [hb, ih]

theorem valFrom_le (l : Str) : ∀ (a : Nat), a ≤ valFrom l a := by
  induction l with
  | nil => intro a; simp [valFrom]
  | cons b r ih =>
    intro a
    simp only [valFrom]
    have h1 : a ≤ a * 10 + (b - 48) := by omega
    exact le_trans h1 (ih (a * 10 + (b - 48)))

theorem foldl_parseStep (l : Str) : ∀ (a : Nat), a < 2 ^ 64 →
    l.foldl parseStep (some a) =
      if (∀ b ∈ l, 48 ≤ b ∧ b ≤ 57) ∧ valFrom l a < 2 ^ 64
      then some (valFrom l a) else none := by
  induction l with
  | nil =>
    intro a ha
    have hc : (∀ b ∈ ([] : Str), 48 ≤ b ∧ b ≤ 57) ∧ valFrom [] a < 2 ^ 64 :=
      ⟨by simp, by simpa [valFrom] using ha⟩
    rw [List.foldl_nil, if_pos hc]
    rfl
  | cons b r ih =>
    intro a ha
    simp only [List.foldl_cons]
    by_cases hd : 48 ≤ b ∧ b ≤ 57
    · by_cases hov : a * 10 + (b - 48) < 2 ^ 64
      · have hstep : parseStep (some a) b = some (a * 10 + (b - 48)) := by
          simp only [parseStep, Option.some_bind, if_pos hd, if_pos hov]
        rw [hstep, ih _ hov]
        simp [List.forall_mem_cons, hd, valFrom]
      · have hstep : parseStep (some a) b = none := by
          simp only [parseStep, Option.some_bind, if_pos hd, if_neg hov]
        rw [hstep, parseStep_none]
        rw [if_neg]
        rintro ⟨-, hv⟩
        simp only [valFrom] at hv
        have := valFrom_le r (a * 10 + (b - 48))
        omega
    · have hstep : parseStep (some a) b = none := by
        simp only [parseStep, Option.some_bind, if_neg hd]
      rw [hstep, parseStep_none]
      rw [if_neg]
      rintro ⟨hall, -⟩
      exact hd (hall b (by simp))

theorem rustParseU64_eq (x : Str) :
    rustParseU64 x =
      if stripPlus x ≠ [] ∧ (∀ b ∈ stripPlus x, 48 ≤ b ∧ b ≤ 57) ∧
          digitsVal (stripPlus x) < 2 ^ 64
      then some (digitsVal (stripPlus x)) else none := by
  cases x with
  | nil => simp [rustParseU64, stripPlus]
  | cons b r =>
    simp only [rustParseU64]
    by_cases hnil : stripPlus (b :: r) = []
    · simp [hnil]
    · rw [if_neg hnil, foldl_parseStep _ 0 (by norm_num)]
      simp [hnil, digitsVal]

theorem tokenize_next_none {T : Type} [DecidableEq T] (f : Str → T) (s : Str)
    {l : List (Nat × Str)} (h : TokenIterator.next f s l = none) :
    tokenize f s l = none := by
  rw [tokenize_step, h]

theorem tokenize_next_end {T : Type} [DecidableEq T] (f : Str → T) (s : Str)
    {l : List (Nat × Str)} (h : TokenIterator.next f s l = some none) :
    tokenize f s l = some [] := by
  rw [tokenize_step, h]

theorem tokenize_next_tok {T : Type} [DecidableEq T] (f : Str → T) (s : Str)
    {l rest : List (Nat × Str)} {tok : Str × T}
    (h : TokenIterator.next f s l = some (some (tok, rest))) :
    tokenize f s l = (tokenize f s rest).map fun toks => tok :: toks := by
  rw [tokenize_step, h]

/-! ### Specification-side definitions, following the words of the spec -/


theorem rustParseU64_good (x : Str) (h : GoodNumeral x) :
    rustParseU64 x = some (digitsVal x) := by
  obtain ⟨hne, hdig, hlt⟩ := h
  have hsp : stripPlus x = x := by
    cases x with
    | nil => rfl
    | cons b r =>
      have hb := hdig b (by simp)
      have hb43 : ¬ b = 43 := by omega
      simp [stripPlus, hb43]
  rw [rustParseU64_eq, hsp, if_pos ⟨hne, hdig, hlt⟩]


theorem cmpTokens_spec (t1 t2 : Str × SortingType)
    (h1 : t1.2 = SortingType.Numeric → GoodNumeral t1.1)
    (h2 : t2.2 = SortingType.Numeric → GoodNumeral t2.1) :
    cmpTokens t1 t2 = some (specCmpTok t1 t2) := by
  obtain ⟨x1, c1⟩ := t1
  obtain ⟨x2, c2⟩ := t2
  cases c1 <;> cases c2 <;> simp only [cmpTokens, specCmpTok]
  · have g1 : rustParseUsize x1 = some (digitsVal x1) := rustParseU64_good x1 (h1 rfl)
    have g2 : rustParseUsize x2 = some (digitsVal x2) := rustParseU64_good x2 (h2 rfl)
    rw [g1, g2]
    by_cases hc : cmpNat (digitsVal x1) (digitsVal x2) = Ordering.eq
    · simp [hc]
    · simp [hc]
  · by_cases hc : lexBytes x1 x2 = Ordering.eq
    · simp [hc]
    · simp [hc]

theorem humaneOrderLoop_spec (s1 s2 : Str) :
    ∀ (f : Nat) (l1 l2 : List (Nat × Str)) (ta tb : List (Str × SortingType)),
      l1.length < f →
      tokenize sorting_type s1 l1 = some ta →
      tokenize sorting_type s2 l2 = some tb →
      (∀ t ∈ ta, t.2 = SortingType.Numeric → GoodNumeral t.1) →
      (∀ t ∈ tb, t.2 = SortingType.Numeric → GoodNumeral t.1) →
      humaneOrderLoop f s1 s2 l1 l2 = some (specHumaneOrder ta tb) := by
  intro f
  induction f with
  | zero =>
    intro l1 l2 ta tb h
    omega
  | succ f ih =>
    intro l1 l2 ta tb hlen hta htb hna hnb
    cases hA : TokenIterator.next sorting_type s1 l1 with
    | none => rw [tokenize_next_none _ _ hA] at hta; cases hta
    | some o1 =>
      cases hB : TokenIterator.next sorting_type s2 l2 with
      | none => rw [tokenize_next_none _ _ hB] at htb; cases htb
      | some o2 =>
        cases o1 with
        | none =>
          rw [tokenize_next_end _ _ hA] at hta
          replace hta : ta = [] := by
            simpa using hta.symm
          subst hta
          cases o2 with
          | none =>
            rw [tokenize_next_end _ _ hB] at htb
            replace htb : tb = [] := by
              simpa using htb.symm
            subst htb
            simp [humaneOrderLoop, hA, hB, specHumaneOrder]
          | some tr2 =>
            obtain ⟨t2, r2⟩ := tr2
            rw [tokenize_next_tok _ _ hB] at htb
            cases htb2 : tokenize sorting_type s2 r2 with
            | none => rw [htb2] at htb; cases htb
            | some tb2 =>
              rw [htb2] at htb
              replace htb : tb = t2 :: tb2 := by
                simpa using htb.symm
              subst htb
              simp [humaneOrderLoop, hA, hB, specHumaneOrder]
        | some tr1 =>
          obtain ⟨t1, r1⟩ := tr1
          rw [tokenize_next_tok _ _ hA] at hta
          cases hta2 : tokenize sorting_type s1 r1 with
          | none => rw [hta2] at hta; cases hta
          | some ta2 =>
            rw [hta2] at hta
            replace hta : ta = t1 :: ta2 := by
              simpa using hta.symm
            subst hta
            cases o2 with
            | none =>
              rw [tokenize_next_end _ _ hB] at htb
              replace htb : tb = [] := by
                simpa using htb.symm
              subst htb
              simp [humaneOrderLoop, hA, hB, specHumaneOrder]
            | some tr2 =>
              obtain ⟨t2, r2⟩ := tr2
              rw [tokenize_next_tok _ _ hB] at htb
              cases htb2 : tokenize sorting_type s2 r2 with
              | none => rw [htb2] at htb; cases htb
              | some tb2 =>
                rw [htb2] at htb
                replace htb : tb = t2 :: tb2 := by
                  simpa using htb.symm
                subst htb
                have hct : cmpTokens t1 t2 = some (specCmpTok t1 t2) :=
                  cmpTokens_spec t1 t2 (hna t1 (by simp)) (hnb t2 (by simp))
                cases hsp : specCmpTok t1 t2 with
                | some v =>
                  rw [hsp] at hct
                  simp [humaneOrderLoop, hA, hB, hct, specHumaneOrder, hsp]
                | none =>
                  rw [hsp] at hct
                  have hr1 := next_rest_length _ _ _ _ _ hA
                  have hrec := ih r1 r2 ta2 tb2 (by omega) hta2 htb2
                    (fun t ht => hna t (by simp [ht]))
                    (fun t ht => hnb t (by simp [ht]))
                  simp only [humaneOrderLoop, hA, hB, hct, specHumaneOrder, hsp]
                  exact hrec

/-! ### Tokens always carry nonempty text -/

theorem sliceStr_ne_nil {s : Str} {a b : Nat} {t : Str}
    (h : sliceStr s a b = some t) (hab : a < b) : t ≠ [] := by
  unfold sliceStr at h
  split_ifs at h with hcond
  · obtain ⟨h1, h2, h3, h4⟩ := hcond
    replace h : (s.drop a).take (b - a) = t := by
      simpa using h
    intro ht
    subst ht
    have hlen : ((s.drop a).take (b - a)).length = 0 := by
      rw [h]
      rfl
    rw [List.length_take, List.length_drop] at hlen
    omega

theorem tokLoop_graphemes {T : Type} [DecidableEq T] (f : Str → T) (s : Str) :
    ∀ (gs : List Str) (fi idx : Nat) (g : Str) (tok : Str × T)
      (rest : List (Nat × Str)),
      fi ≤ idx → (∀ gg ∈ gs, gg ≠ []) → g ≠ [] →
      tokLoop f s fi idx g (graphemeIndicesFrom (idx + g.length) gs) =
        some (tok, rest) →
      tok.1 ≠ [] ∧
        ∃ o2 gs2, (∀ gg ∈ gs2, gg ≠ []) ∧ rest = graphemeIndicesFrom o2 gs2 := by
  intro gs
  induction gs with
  | nil =>
    intro fi idx g tok rest hfi hgs hg h
    simp only [graphemeIndicesFrom, tokLoop] at h
    cases hs : sliceStr s fi (idx + 1) with
    | none => rw [hs] at h; cases h
    | some txt =>
      rw [hs] at h
      simp only [Option.map_some', Option.some.injEq] at h
      injection h with h1 h2
      subst h1
      subst h2
      exact ⟨sliceStr_ne_nil hs (by omega), 0, [], by simp, rfl⟩
  | cons g2 gs2 ih =>
    intro fi idx g tok rest hfi hgs hg h
    have hg2 : g2 ≠ [] := hgs g2 (by simp)
    have hgs2 : ∀ gg ∈ gs2, gg ≠ [] := fun gg hgg => hgs gg (by simp [hgg])
    simp only [graphemeIndicesFrom, tokLoop] at h
    by_cases hft : f g = f g2
    · rw [if_neg (by simpa using hft)] at h
      have hglen : 1 ≤ g.length := by
        cases g with
        | nil => exact absurd rfl hg
        | cons c r => simp
      exact ih fi (idx + g.length) g2 tok rest (by omega) hgs2 hg2 h
    · rw [if_pos (by simpa using hft)] at h
      cases hs : sliceStr s fi (idx + 1) with
      | none => rw [hs] at h; cases h
      | some txt =>
        rw [hs] at h
        simp only [Option.map_some', Option.some.injEq] at h
        injection h with h1 h2
        subst h1
        subst h2
        exact ⟨sliceStr_ne_nil hs (by omega), idx + g.length, g2 :: gs2, hgs, rfl⟩

theorem next_token_nonempty {T : Type} [DecidableEq T] (f : Str → T) (s : Str)
    (gs : List Str) (o : Nat) (tok : Str × T) (rest : List (Nat × Str))
    (hgs : ∀ g ∈ gs, g ≠ [])
    (h : TokenIterator.next f s (graphemeIndicesFrom o gs) = some (some (tok, rest))) :
    tok.1 ≠ [] ∧
      ∃ o2 gs2, (∀ g ∈ gs2, g ≠ []) ∧ rest = graphemeIndicesFrom o2 gs2 := by
  cases gs with
  | nil => simp [graphemeIndicesFrom, TokenIterator.next] at h
  | cons g gs2 =>
    simp only [graphemeIndicesFrom, TokenIterator.next] at h
    cases ht : tokLoop f s o o g (graphemeIndicesFrom (o + g.length) gs2) with
    | none => rw [ht] at h; cases h
    | some r =>
      rw [ht] at h
      obtain ⟨tok2, rest2⟩ := r
      simp only [Option.some.injEq] at h
      injection h with h1 h2
      subst h1
      subst h2
      exact tokLoop_graphemes f s gs2 o o g tok2 rest2 (le_refl o)
        (fun gg hgg => hgs gg (by simp [hgg])) (hgs g (by simp)) ht

/-! ### The claims -/

/-- C1: for every pair of strings (given their grapheme-cluster lists)
whose tokenizations succeed and whose Numeric-classified tokens carry
representable all-digit numerals (the failure cases are claims C2 and
C4), humane_order is exactly the lock-step walk over the two token
sequences with the claimed per-pair tie-break table: (Numeric,
NonNumeric) is Less, (NonNumeric, Numeric) is Greater, (Numeric,
Numeric) compares parsed values and continues on equality,
(NonNumeric, NonNumeric) compares texts lexicographically and
continues on equality, an exhausted side is Less, and simultaneous
exhaustion is Equal. -/
theorem C1_humane_order_is_tokenwise_walk
    (a b : Str) (gsa gsb : List Str) (ta tb : List (Str × SortingType))
    (ha : tokenize sorting_type a (graphemeIndices gsa) = some ta)
    (hb : tokenize sorting_type b (graphemeIndices gsb) = some tb)
    (hna : ∀ t ∈ ta, t.2 = SortingType.Numeric → GoodNumeral t.1)
    (hnb : ∀ t ∈ tb, t.2 = SortingType.Numeric → GoodNumeral t.1) :
    humane_order a b gsa gsb = some (specHumaneOrder ta tb) := by
  unfold humane_order
  exact humaneOrderLoop_spec a b _ _ _ ta tb (Nat.lt_succ_self _) ha hb hna hnb

/-- C1 witness: "file2" against "file10" (the spec's mixed-run
example): both tokenize, all numerals are representable, and the
result is the spec-side walk's verdict, Less. -/
theorem C1_witness :
    humane_order file2Str file10Str (asciiSeg file2Str) (asciiSeg file10Str) =
      some (specHumaneOrder
        [([102, 105, 108, 101], SortingType.NonNumeric), ([50], SortingType.Numeric)]
        [([102, 105, 108, 101], SortingType.NonNumeric), ([49, 48], SortingType.Numeric)]) :=
  C1_humane_order_is_tokenwise_walk file2Str file10Str
    (asciiSeg file2Str) (asciiSeg file10Str)
    [([102, 105, 108, 101], SortingType.NonNumeric), ([50], SortingType.Numeric)]
    [([102, 105, 108, 101], SortingType.NonNumeric), ([49, 48], SortingType.Numeric)]
    (by decide) (by decide) (by decide) (by decide)

/-- C2 (code bug): tokenizer coverage fails.  The string containing the
single two-byte grapheme cluster U+00E9 is a valid input ([eAcute] is
its Unicode segmentation, and the clusters concatenate back to the
string), yet tokenization panics (returns no token sequence at all):
the token slice string[first_index..index+1] computes the end as byte
offset of the last grapheme plus one, which falls inside the two-byte
character, so the claimed exact reconstruction of s from the token
texts is impossible. -/
theorem C2_tokenizer_coverage_fails_on_multibyte :
    List.flatten [eAcute] = eAcute ∧
    tokenize sorting_type eAcute (graphemeIndices [eAcute]) = none := by
  refine ⟨by decide, by decide⟩

/-- C3 (counterexample): reflexivity fails as claimed, because a
comparison can panic: the 26-nines string tokenizes to one Numeric
token whose text exceeds the usize range, so comparing it with itself
hits the parse unwrap and returns no verdict rather than Equal. -/
theorem C3_counterexample_reflexivity_overflow :
    ¬ humane_order nines26 nines26 (asciiSeg nines26) (asciiSeg nines26) =
        some Ordering.eq := by
  decide

/-- C3 (amended): the total-order laws hold on every comparison that
returns a verdict: a self-comparison that does not panic is Equal, a
Less verdict forbids the swapped Less verdict, and Less verdicts
compose transitively, for all strings and all grapheme-cluster lists. -/
theorem C3_total_order_laws :
    (∀ (a : Str) (gsa : List Str),
      humane_order a a gsa gsa ≠ none →
      humane_order a a gsa gsa = some Ordering.eq) ∧
    (∀ (a b : Str) (gsa gsb : List Str),
      humane_order a b gsa gsb = some Ordering.lt →
      ¬ humane_order b a gsb gsa = some Ordering.lt) ∧
    (∀ (a b c : Str) (gsa gsb gsc : List Str),
      humane_order a b gsa gsb = some Ordering.lt →
      humane_order b c gsb gsc = some Ordering.lt →
      humane_order a c gsa gsc = some Ordering.lt) := by
  refine ⟨?_, ?_, ?_⟩
  · intro a gsa h
    exact humaneOrderLoop_refl _ _ h
  · intro a b gsa gsb hab hba
    have hswap := @humaneOrderLoop_swap a b ((graphemeIndices gsb).length + 1)
      (graphemeIndices gsa) (graphemeIndices gsb)
    have hfuel := @humaneOrderLoop_fuel a b ((graphemeIndices gsb).length + 1)
      ((graphemeIndices gsa).length + 1) (graphemeIndices gsa) (graphemeIndices gsb)
      (by omega) (by omega)
    unfold humane_order at hab hba
    rw [hswap, hfuel, hab] at hba
    simp [Ordering.swap] at hba
  · intro a b c gsa gsb gsc hab hbc
    unfold humane_order at hab hbc ⊢
    exact humaneOrderLoop_lt_trans _ _ _ _ _ _ (by omega) hab hbc

/-- C3 witness: the three laws applied at concrete inputs: "a" with
itself is Equal, "1" < "2" forbids "2" < "1", and "1" < "2" with
"2" < "3" gives "1" < "3". -/
theorem C3_witness :
    humane_order aChr aChr (asciiSeg aChr) (asciiSeg aChr) = some Ordering.eq ∧
    ¬ humane_order [50] [49] (asciiSeg [50]) (asciiSeg [49]) = some Ordering.lt ∧
    humane_order [49] [51] (asciiSeg [49]) (asciiSeg [51]) = some Ordering.lt :=
  ⟨C3_total_order_laws.1 aChr (asciiSeg aChr) (by decide),
   C3_total_order_laws.2.1 [49] [50] (asciiSeg [49]) (asciiSeg [50]) (by decide),
   C3_total_order_laws.2.2 [49] [50] [51] (asciiSeg [49]) (asciiSeg [50])
     (asciiSeg [51]) (by decide) (by decide)⟩

/-- C4 (counterexample): a comparison in which a Numeric-classified
token's text exceeds the representable range does not always fail:
the 26-nines string tokenizes to a single Numeric token whose text
fails the usize parse, yet comparing it with "a" returns Less (the
(Numeric, NonNumeric) verdict fires before any parse). -/
theorem C4_counterexample_overflow_comparison_succeeds :
    tokenize sorting_type nines26 (graphemeIndices (asciiSeg nines26)) =
        some [(nines26, SortingType.Numeric)] ∧
    rustParseUsize nines26 = none ∧
    humane_order nines26 aChr (asciiSeg nines26) (asciiSeg aChr) =
      some Ordering.lt := by
  refine ⟨by decide, by decide, by decide⟩

/-- C4 (amended): whenever the comparator actually reaches a token pair
both classified Numeric with either text failing the usize parse (in
particular any numeral beyond 2^64 - 1), the comparison fails hard
(returns no verdict, modelling the unwrap panic): it never wraps,
truncates, or falls back to lexicographic comparison.  Stated both for
an arbitrary reached loop state and for the first token pair of a full
humane_order call. -/
theorem C4_numeric_parse_failure_is_fatal :
    (∀ (f : Nat) (s1 s2 x1 x2 : Str) (l1 l2 r1 r2 : List (Nat × Str)),
      TokenIterator.next sorting_type s1 l1 =
          some (some ((x1, SortingType.Numeric), r1)) →
      TokenIterator.next sorting_type s2 l2 =
          some (some ((x2, SortingType.Numeric), r2)) →
      rustParseUsize x1 = none ∨ rustParseUsize x2 = none →
      humaneOrderLoop (f + 1) s1 s2 l1 l2 = none) ∧
    (∀ (a b x1 x2 : Str) (gsa gsb : List Str) (r1 r2 : List (Nat × Str)),
      TokenIterator.next sorting_type a (graphemeIndices gsa) =
          some (some ((x1, SortingType.Numeric), r1)) →
      TokenIterator.next sorting_type b (graphemeIndices gsb) =
          some (some ((x2, SortingType.Numeric), r2)) →
      rustParseUsize x1 = none ∨ rustParseUsize x2 = none →
      humane_order a b gsa gsb = none) := by
  have key : ∀ (f : Nat) (s1 s2 x1 x2 : Str) (l1 l2 r1 r2 : List (Nat × Str)),
      TokenIterator.next sorting_type s1 l1 =
          some (some ((x1, SortingType.Numeric), r1)) →
      TokenIterator.next sorting_type s2 l2 =
          some (some ((x2, SortingType.Numeric), r2)) →
      rustParseUsize x1 = none ∨ rustParseUsize x2 = none →
      humaneOrderLoop (f + 1) s1 s2 l1 l2 = none := by
    intro f s1 s2 x1 x2 l1 l2 r1 r2 h1 h2 hov
    have hc : cmpTokens (x1, SortingType.Numeric) (x2, SortingType.Numeric) = none := by
      rcases hov with h | h
      · simp [cmpTokens, h]
      · cases hp1 : rustParseUsize x1 <;> simp [cmpTokens, hp1, h]
    simp [humaneOrderLoop, h1, h2, hc]
  refine ⟨key, ?_⟩
  intro a b x1 x2 gsa gsb r1 r2 h1 h2 hov
  unfold humane_order
  exact key _ a b x1 x2 _ _ r1 r2 h1 h2 hov

/-- C4 witness: the amended failure law applied at the concrete
overflowing input: comparing the 26-nines string with itself panics. -/
theorem C4_witness :
    humane_order nines26 nines26 (asciiSeg nines26) (asciiSeg nines26) = none :=
  C4_numeric_parse_failure_is_fatal.2 nines26 nines26 nines26 nines26
    (asciiSeg nines26) (asciiSeg nines26) [] []
    (by decide) (by decide) (Or.inl (by decide))

/-- C5 (counterexample): the built-in classification is not "Numeric
iff the entire text is an unsigned integer with no sign": the text
"+7" has a sign, so the claim classifies it NonNumeric, but Rust's
u64 parse accepts the leading plus and the code returns Numeric. -/
theorem C5_counterexample_plus_sign :
    sorting_type [43, 55] = SortingType.Numeric ∧
    specSortingType [43, 55] = SortingType.NonNumeric := by
  refine ⟨by decide, by decide⟩

/-- C5 (amended): the built-in classification returns Numeric iff the
text, after stripping the optional leading plus sign Rust's unsigned
parse accepts, is a nonempty run of ASCII digits whose value fits in
64 bits; otherwise NonNumeric.  (Beyond the plus sign, the claim as
stated also misses the range bound: a digit run beyond 2^64 - 1 is
classified NonNumeric.) -/
theorem C5_sorting_type_characterization (x : Str) :
    sorting_type x = SortingType.Numeric ↔
      (stripPlus x ≠ [] ∧ (∀ b ∈ stripPlus x, 48 ≤ b ∧ b ≤ 57) ∧
        digitsVal (stripPlus x) < 2 ^ 64) := by
  unfold sorting_type
  rw [rustParseU64_eq x]
  split_ifs with hc
  · constructor
    · intro h2
      exact hc
    · intro h2
      rfl
  · constructor
    · intro h2
      exact h2.elim
    · intro h2
      exact absurd h2 hc

/-- C5 witness: the characterization applied at "5". -/
theorem C5_witness : sorting_type [53] = SortingType.Numeric :=
  (C5_sorting_type_characterization [53]).mpr (by decide)

/-- C6: "007" and "7" compare Equal: each tokenizes to a single
Numeric token, both texts parse to the value 7, and the texts differ
as strings. -/
theorem C6_leading_zeros_insignificant :
    humane_order str007 str7 (asciiSeg str007) (asciiSeg str7) = some Ordering.eq ∧
    tokenize sorting_type str007 (graphemeIndices (asciiSeg str007)) =
      some [(str007, SortingType.Numeric)] ∧
    tokenize sorting_type str7 (graphemeIndices (asciiSeg str7)) =
      some [(str7, SortingType.Numeric)] ∧
    rustParseUsize str007 = some 7 ∧
    rustParseUsize str7 = some 7 ∧
    ¬ str007 = str7 := by
  refine ⟨by decide, by decide, by decide, by decide, by decide, by decide⟩

/-- C7 (code bug): comparing "" with "" is Equal and comparing "" with
the non-empty ASCII string "a" makes "" lesser, as claimed; but the
claim's universal half fails: comparing "" with the non-empty string
eAcute panics (the tokenizer slices mid-character while pulling the
right-hand token, and both next calls are evaluated before the match),
so no Less verdict is returned there. -/
theorem C7_empty_string_cases :
    humane_order [] [] [] [] = some Ordering.eq ∧
    humane_order [] aChr [] (asciiSeg aChr) = some Ordering.lt ∧
    humane_order [] eAcute [] [eAcute] = none := by
  refine ⟨by decide, by decide, by decide⟩

/-- C8 (code bug): a single-grapheme string does not always yield one
token spanning the whole string: for the one-cluster string
eCombining (e followed by a combining acute accent) the tokenizer
yields the token "e" (the first byte only) and drops the combining
mark, because the slice end is computed as the cluster's offset plus
one byte. -/
theorem C8_single_grapheme_token_truncated :
    tokenize sorting_type eCombining (graphemeIndices [eCombining]) =
      some [([101], SortingType.NonNumeric)] ∧
    ¬ ([101] : Str) = eCombining := by
  refine ⟨by decide, by decide⟩

/-- C9: HumaneString equality is raw string equality (new a = new b iff
a = b), cmp delegates exactly to humane_order, and the unequal values
built from "007" and "7" compare Equal under cmp. -/
theorem C9_humane_string_eq_and_cmp :
    (∀ a b : Str, HumaneString.new a = HumaneString.new b ↔ a = b) ∧
    (∀ (a b : Str) (gsa gsb : List Str),
      HumaneString.cmp (HumaneString.new a) (HumaneString.new b) gsa gsb =
        humane_order a b gsa gsb) ∧
    (¬ HumaneString.new str007 = HumaneString.new str7 ∧
      HumaneString.cmp (HumaneString.new str007) (HumaneString.new str7)
        (asciiSeg str007) (asciiSeg str7) = some Ordering.eq) := by
  refine ⟨?_, ?_, ?_, ?_⟩
  · intro a b
    constructor
    · intro h
      injection h
    · intro h
      rw [h]
  · intro a b gsa gsb
    rfl
  · decide
  · decide

/-- C9 witness: the equality law applied at the concrete string "a". -/
theorem C9_witness : HumaneString.new aChr = HumaneString.new aChr :=
  (C9_humane_string_eq_and_cmp.1 aChr aChr).mpr rfl

/-- C10: for every classifier into any tag type and every genuine
grapheme stream (every grapheme cluster nonempty, offsets as
grapheme_indices produces them), every token TokenIterator::next
yields has nonempty text, and the post state is again a genuine
grapheme stream, so the invariant covers every token of an iteration
and the comparator never sees an empty Numeric token. -/
theorem C10_token_text_nonempty {T : Type} [DecidableEq T] (f : Str → T) (s : Str)
    (gs : List Str) (o : Nat) (tok : Str × T) (rest : List (Nat × Str))
    (hgs : ∀ g ∈ gs, g ≠ [])
    (h : TokenIterator.next f s (graphemeIndicesFrom o gs) = some (some (tok, rest))) :
    tok.1 ≠ [] ∧
      ∃ o2 gs2, (∀ g ∈ gs2, g ≠ []) ∧ rest = graphemeIndicesFrom o2 gs2 :=
  next_token_nonempty f s gs o tok rest hgs h

/-- C10 witness: the invariant applied to the first token of "1a": the
yielded token "1" is nonempty and the remaining stream is the grapheme
stream of "a" at offset 1. -/
theorem C10_witness :
    ((([49], SortingType.Numeric) : Str × SortingType).1 ≠ []) ∧
      ∃ o2 gs2, (∀ g ∈ gs2, g ≠ []) ∧
        ([((1 : Nat), ([97] : Str))] : List (Nat × Str)) = graphemeIndicesFrom o2 gs2 :=
  C10_token_text_nonempty sorting_type [49, 97] [[49], [97]] 0
    ([49], SortingType.Numeric) [(1, [97])] (by decide) (by decide)
